import Mathlib

/-!
Verification of the expression-tree engine in `expression.py`.

The Python classes `Literal`, `Negation`, `Absolute`, `Sum`, `Product`,
`Power`, `FloorDivision` become the constructors of one inductive type.
Python unbounded `int` is `ℤ`; `a // b` is `Int.fdiv`, `a % n` is `Int.fmod`
(both round toward negative infinity, matching CPython).  Methods that can
raise return `Except PyErr`.  `simplify` recurses on rebuilt trees, so the
embedding is indexed by fuel (one unit per Python call frame); running out of
fuel is the stand-in for `RecursionError`.
-/

/-- Abnormal outcomes of the Python methods. -/
inductive PyErr where
  /-- `ZeroDivisionError` (from `//`, `%` with zero divisor, or `0 ** negative`). -/
  | divByZero
  /-- `int ** negative-int` returns a non-integer `float` in Python (no exception);
      the value is not representable in this integer-valued model, so it is
      flagged with this marker. -/
  | floatPow
  /-- `ValueError` from three-argument `pow` with a negative exponent and a
      base not invertible modulo `n`. -/
  | powValueErr
  /-- `TypeError` from `functools.reduce` applied to an empty iterable with no
      initializer. -/
  | emptyReduce
  /-- Fuel exhausted: models Python's bounded call stack (`RecursionError`). -/
  | outOfFuel
deriving DecidableEq

/-- The tagged expression-tree type of `expression.py`: one constructor per
Python class.  `_wrap` guarantees children are always expressions, so child
fields are `Expression`, never raw integers. -/
inductive Expression where
  | Literal (value : ℤ)
  | Negation (value : Expression)
  | Absolute (value : Expression)
  | Sum (left right : Expression)
  | Product (left right : Expression)
  | Power (left right : Expression)
  | FloorDivision (left right : Expression)
deriving DecidableEq

namespace Expression

/-- `Binary.unwrap_parens` specialised to `Sum`: the flat ordered list of the
transitively nested `Sum` children (other node kinds are kept whole). -/
def unwrapSum : Expression → List Expression
  | Sum l r => unwrapSum l ++ unwrapSum r
  | e => [e]

/-- `Binary.unwrap_parens` specialised to `Product`. -/
def unwrapProd : Expression → List Expression
  | Product l r => unwrapProd l ++ unwrapProd r
  | e => [e]

/-- `extract_literals` applied to a materialised list (as in
`FloorDivision.simplify`, where both filters iterate the list independently):
literal values and non-literal elements, each in original relative order. -/
def extractLiterals : List Expression → List ℤ × List Expression
  | [] => ([], [])
  | e :: es =>
    let p := extractLiterals es
    match e with
    | Literal v => (v :: p.1, p.2)
    | _ => (p.1, e :: p.2)

/-- `functools.reduce(operator.add, xs)`: left fold building `Sum` nodes;
raises `TypeError` on an empty iterable. -/
def reduceAdd : List Expression → Except PyErr Expression
  | [] => .error .emptyReduce
  | e :: es => .ok (es.foldl Sum e)

/-- `functools.reduce(operator.mul, xs)`: left fold building `Product` nodes. -/
def reduceMul : List Expression → Except PyErr Expression
  | [] => .error .emptyReduce
  | e :: es => .ok (es.foldl Product e)

/-- `isinstance(e, FloorDivision)` together with field access. -/
def asFD : Expression → Option (Expression × Expression)
  | FloorDivision a b => some (a, b)
  | _ => none

/-- Numerator factor list in `FloorDivision.simplify`: unwrapped factors for a
`Product`, a singleton for a `Literal`, else the empty default. -/
def numFactors : Expression → List Expression
  | Product a b => unwrapProd (Product a b)
  | Literal v => [Literal v]
  | _ => []

/-- Denominator factor list in `FloorDivision.simplify`: unwrapped factors for
a `Product`, else a singleton (always non-empty). -/
def denFactors : Expression → List Expression
  | Product a b => unwrapProd (Product a b)
  | e => [e]

/-- One outer iteration (index `i`) of the literal-cancellation loop in
`FloorDivision.simplify`.  `num` is read once before the inner loop and never
refreshed, exactly as in the source, where the loop variable `num` goes stale
after `num_literals[i]` is reassigned; each inner step divides by the gcd of
that stale `num` and the current denominator entry.  (Python's `num // d`
would raise on `d = 0`, which needs `num = den = 0`; simplified factor lists
never contain a literal zero, and `Int.fdiv _ 0 = 0` is the total stand-in.) -/
def cancelStep (i : ℕ) (p : List ℤ × List ℤ) : List ℤ × List ℤ :=
  let num := p.1.getD i 0
  (List.range p.2.length).foldl
    (fun q j =>
      let den := q.2.getD j 0
      let d : ℤ := Int.gcd num den
      (q.1.set i (Int.fdiv num d), q.2.set j (Int.fdiv den d)))
    p

/-- The full pairwise gcd-cancellation double loop over the numerator and
denominator literal lists. -/
def cancelLiterals (nl dl : List ℤ) : List ℤ × List ℤ :=
  (List.range nl.length).foldl (fun p i => cancelStep i p) (nl, dl)

/-- `Expression.eval`.  `a ** b` with `b < 0` yields a float in Python
(`PyErr.floatPow` here) unless `a = 0`, which raises `ZeroDivisionError`;
`//` raises `ZeroDivisionError` on a zero divisor and floors otherwise. -/
def eval : Expression → Except PyErr ℤ
  | Literal v => .ok v
  | Negation x => do
    let v ← eval x
    .ok (-v)
  | Absolute x => do
    let v ← eval x
    .ok |v|
  | Sum l r => do
    let a ← eval l
    let b ← eval r
    .ok (a + b)
  | Product l r => do
    let a ← eval l
    let b ← eval r
    .ok (a * b)
  | Power l r => do
    let a ← eval l
    let b ← eval r
    if 0 ≤ b then .ok (a ^ b.toNat)
    else if a = 0 then .error .divByZero
    else .error .floatPow
  | FloorDivision l r => do
    let a ← eval l
    let b ← eval r
    if b = 0 then .error .divByZero
    else .ok (Int.fdiv a b)

/-- A representative of the inverse of `b` modulo `n`, via the extended
Euclidean algorithm; used only on the negative-exponent path of
three-argument `pow`, where Python computes a modular inverse. -/
def modInv (b n : ℤ) : ℤ :=
  (Nat.gcdA (Int.emod b (n.natAbs)).toNat n.natAbs : ℤ)

/-- Python's three-argument `pow(b, e, n)` for `n ≠ 0` (callers reach it only
after a successful child reduction, which forces `n ≠ 0`): the canonical
residue of `b ^ e` for `e ≥ 0`; for `e < 0` an inverse is used when
`gcd(b, n) = 1` and otherwise `ValueError` is raised. -/
def pyPow (b e n : ℤ) : Except PyErr ℤ :=
  if 0 ≤ e then .ok (Int.fmod (b ^ e.toNat) n)
  else if Int.gcd b n = 1 then .ok (Int.fmod (modInv b n ^ (-e).toNat) n)
  else .error .powValueErr

/-- `Expression.__mod__` (written `tree % n` in the source): per-variant
modular reduction.  `Literal` reduces its value; `Negation` negates without
re-reducing; `Absolute` and `FloorDivision` fall back to a full `eval`;
`Power` reduces the base but fully evaluates the exponent.  A zero modulus
raises `ZeroDivisionError` at the first primitive `%`. -/
def modReduce : Expression → ℤ → Except PyErr ℤ
  | Literal v, n =>
    if n = 0 then .error .divByZero else .ok (Int.fmod v n)
  | Negation x, n => do
    let v ← modReduce x n
    .ok (-v)
  | Absolute x, n => do
    let v ← eval x
    if n = 0 then .error .divByZero else .ok |Int.fmod v n|
  | Sum l r, n => do
    let a ← modReduce l n
    let b ← modReduce r n
    .ok (Int.fmod (a + b) n)
  | Product l r, n => do
    let a ← modReduce l n
    let b ← modReduce r n
    .ok (Int.fmod (a * b) n)
  | Power l r, n => do
    let a ← modReduce l n
    let b ← eval r
    pyPow a b n
  | FloorDivision l r, n => do
    let v ← eval (FloorDivision l r)
    if n = 0 then .error .divByZero else .ok (Int.fmod v n)

/-- Combined string rendering: for a node `e` the triple holds
(`str(e)`, the `' + '`-join of `e`'s flattened `Sum` spine, the `'*'`-join of
`e`'s flattened `Product` spine).  For a non-`Sum` node the second component
is just `str(e)`, and likewise the third for a non-`Product` node, so the
spine joins agree with `'.join(map(str, self.unwrap_parens()))` in the
source.  A single structural recursion replaces the mutual one. -/
def strs : Expression → String × String × String
  | Literal v =>
    let s := toString v
    (s, s, s)
  | Negation x =>
    let s := "-" ++ (strs x).1
    (s, s, s)
  | Absolute x =>
    let s := "|" ++ (strs x).1 ++ "|"
    (s, s, s)
  | Sum l r =>
    let j := (strs l).2.1 ++ " + " ++ (strs r).2.1
    ("(" ++ j ++ ")", j, "(" ++ j ++ ")")
  | Product l r =>
    let j := (strs l).2.2 ++ "*" ++ (strs r).2.2
    ("(" ++ j ++ ")", "(" ++ j ++ ")", j)
  | Power l r =>
    let s := (strs l).1 ++ "^" ++ (strs r).1
    (s, s, s)
  | FloorDivision l r =>
    let s := "(" ++ (strs l).1 ++ "/" ++ (strs r).1 ++ ")"
    (s, s, s)

/-- `Expression.__str__`. -/
def toStr (e : Expression) : String := (strs e).1

/-- Sequential traversal of a list by a fallible function, mirroring how the
generator `(x.simplify() for x in self.unwrap_parens())` is consumed: elements
in order, first exception propagating. -/
def mapE (f : Expression → Except PyErr Expression) :
    List Expression → Except PyErr (List Expression)
  | [] => .ok []
  | e :: es => do
    let v ← f e
    let vs ← mapE f es
    .ok (v :: vs)

/-- One layer of `simplify`: the body of every `simplify` method, with `rec`
standing for the recursive call (each use costs one unit of fuel).  Layout
follows the source order of checks in each method. -/
def simplifyStep (rec : Expression → Except PyErr Expression) :
    Expression → Except PyErr Expression
  | Literal v => .ok (Literal v)
  | Negation x => do
    let v ← rec x
    match v with
    | Negation w => .ok w
    | Literal c => .ok (Literal (-c))
    | _ => .ok (Negation v)
  | Absolute x => do
    let v ← rec x
    match v with
    | Absolute a => .ok (Absolute a)
    | Literal c => .ok (Literal |c|)
    | Negation w => .ok w
    | FloorDivision a b => rec (FloorDivision (Absolute a) (Absolute b))
    | Product a b => rec (Product (Absolute a) (Absolute b))
    | _ => .ok (Absolute x)
  | Sum l r => do
    let ss ← mapE rec (unwrapSum (Sum l r))
    let lits := (extractLiterals ss).1
    let litv := lits.sum
    let nonliterals : List Expression := []
    if litv = 0 then reduceAdd nonliterals
    else reduceAdd (nonliterals ++ [Literal litv])
  | Product l r => do
    let lv ← rec l
    let rv ← rec r
    if lv = Literal 1 then .ok rv
    else if rv = Literal 1 then .ok lv
    else if lv = Literal 0 ∨ rv = Literal 0 then .ok (Literal 0)
    else
      match asFD lv with
      | some (a, b) =>
        match asFD rv with
        | some (c, d) => rec (FloorDivision (Product a c) (Product b d))
        | none => rec (FloorDivision (Product a rv) b)
      | none =>
        match asFD rv with
        | some (c, d) => rec (FloorDivision (Product lv c) d)
        | none => .ok (Product lv rv)
  | Power l r => do
    let b ← rec l
    let e ← rec r
    if b = Literal 1 then .ok b
    else if b = Literal (-1) then do
      let m ← modReduce e 2
      if m ≠ 0 then .ok (Literal 1) else .ok b
    else if e = Literal 1 then .ok b
    else if e = Literal 0 then .ok (Literal 1)
    else .ok (Power b e)
  | FloorDivision l r => do
    let nu ← rec l
    let de ← rec r
    if de = Literal 1 then .ok nu
    else if nu = Literal 0 then .ok (Literal 0)
    else
      match asFD de with
      | some (dc, dd) => rec (Product nu (FloorDivision dd dc))
      | none =>
        match asFD nu with
        | some (na, nb) => rec (FloorDivision na (Product nb de))
        | none =>
          let numerators := numFactors nu
          let denominators := denFactors de
          if numerators.isEmpty then .ok (FloorDivision nu de)
          else
            let np := extractLiterals numerators
            let dp := extractLiterals denominators
            let c := cancelLiterals np.1 dp.1
            do
              let nu1 ← reduceMul (c.1.map Literal ++ np.2)
              let nu2 ← rec nu1
              let de1 ← reduceMul (c.2.map Literal ++ dp.2)
              let de2 ← rec de1
              if de2 = Literal 1 then .ok nu2
              else .ok (FloorDivision nu2 de2)

/-- Fuel-indexed `Expression.simplify`.  In the `Sum.simplify` branch of
`simplifyStep` the non-literal side is the constant `[]`: the source's
`split` hands `filter` and `filterfalse` the same generator, and summing the
literal side exhausts it before `final_summands` is consumed, so the
non-literal summands are lost (and `reduce` raises on an empty iterable when
the folded literal is zero). -/
def simplify : ℕ → Expression → Except PyErr Expression
  | 0, _ => .error .outOfFuel
  | n + 1, e => simplifyStep (simplify n) e

/-- Absence of `FloorDivision` nodes anywhere in a tree.  On this fragment
the rewrite rules never rebuild-and-resimplify (the only such rules are the
`FloorDivision` cross-multiplication and cancellation ones), which is what
makes one `simplify` pass a fixed point. -/
def fdFree : Expression → Bool
  | Literal _ => true
  | Negation x => fdFree x
  | Absolute x => fdFree x
  | Sum l r => fdFree l && fdFree r
  | Product l r => fdFree l && fdFree r
  | Power l r => fdFree l && fdFree r
  | FloorDivision _ _ => false

/-- The expression built in the script's `__main__` block:
`abs(Literal(-2) // -3) // (Literal(2) // 3)`. -/
def mainScenario : Expression :=
  FloorDivision
    (Absolute (FloorDivision (Literal (-2)) (Literal (-3))))
    (FloorDivision (Literal 2) (Literal 3))

/-- Membership in the `Sum`/`Product`/`Power`/`Negation`/`Literal` fragment
(no `Absolute`, no `FloorDivision`), the fragment quantified over by the
spec's modular-consistency property. -/
def noAbsDiv : Expression → Bool
  | Literal _ => true
  | Negation x => noAbsDiv x
  | Absolute _ => false
  | Sum l r => noAbsDiv l && noAbsDiv r
  | Product l r => noAbsDiv l && noAbsDiv r
  | Power l r => noAbsDiv l && noAbsDiv r
  | FloorDivision _ _ => false

end Expression

namespace Expression

@[simp] theorem ok_bind {α β : Type} (a : α) (f : α → Except PyErr β) :
    (Except.ok a >>= f) = f a := rfl

@[simp] theorem error_bind {α β : Type} (e : PyErr) (f : α → Except PyErr β) :
    (Except.error e >>= f : Except PyErr β) = Except.error e := rfl

theorem bind_ok_iff {α β : Type} {x : Except PyErr α} {f : α → Except PyErr β} {b : β} :
    x >>= f = Except.ok b ↔ ∃ a, x = Except.ok a ∧ f a = Except.ok b := by
  cases x with
  | ok a => simp
  | error e => simp

theorem mapE_mono {r₁ r₂ : Expression → Except PyErr Expression}
    (hr : ∀ e s, r₁ e = .ok s → r₂ e = .ok s) :
    ∀ l out, mapE r₁ l = .ok out → mapE r₂ l = .ok out := by
  intro l
  induction l with
  | nil => intro out h; exact h
  | cons e es ih =>
    intro out h
    simp only [mapE] at h ⊢
    rw [bind_ok_iff] at h
    obtain ⟨v, hv, h⟩ := h
    rw [bind_ok_iff] at h
    obtain ⟨vs, hvs, h⟩ := h
    exact bind_ok_iff.mpr ⟨v, hr _ _ hv, bind_ok_iff.mpr ⟨vs, ih _ hvs, h⟩⟩

theorem simplifyStep_mono {r₁ r₂ : Expression → Except PyErr Expression}
    (hr : ∀ e s, r₁ e = .ok s → r₂ e = .ok s) :
    ∀ e s, simplifyStep r₁ e = .ok s → simplifyStep r₂ e = .ok s := by
  intro e s h
  cases e with
  | Literal v => exact h
  | Negation x =>
    simp only [simplifyStep] at h ⊢
    rw [bind_ok_iff] at h
    obtain ⟨v, hv, h⟩ := h
    exact bind_ok_iff.mpr ⟨v, hr _ _ hv, h⟩
  | Absolute x =>
    simp only [simplifyStep] at h ⊢
    rw [bind_ok_iff] at h
    obtain ⟨v, hv, h⟩ := h
    refine bind_ok_iff.mpr ⟨v, hr _ _ hv, ?_⟩
    cases v with
    | Literal c => exact h
    | Negation w => exact h
    | Absolute a => exact h
    | FloorDivision a b => exact hr _ _ h
    | Product a b => exact hr _ _ h
    | Sum a b => exact h
    | Power a b => exact h
  | Sum l r =>
    simp only [simplifyStep] at h ⊢
    rw [bind_ok_iff] at h
    obtain ⟨ss, hss, h⟩ := h
    exact bind_ok_iff.mpr ⟨ss, mapE_mono hr _ _ hss, h⟩
  | Power l r =>
    simp only [simplifyStep] at h ⊢
    rw [bind_ok_iff] at h
    obtain ⟨b, hb, h⟩ := h
    rw [bind_ok_iff] at h
    obtain ⟨e, he, h⟩ := h
    exact bind_ok_iff.mpr ⟨b, hr _ _ hb, bind_ok_iff.mpr ⟨e, hr _ _ he, h⟩⟩
  | Product l r =>
    simp only [simplifyStep] at h ⊢
    rw [bind_ok_iff] at h
    obtain ⟨lv, hlv, h⟩ := h
    rw [bind_ok_iff] at h
    obtain ⟨rv, hrv, h⟩ := h
    refine bind_ok_iff.mpr ⟨lv, hr _ _ hlv, bind_ok_iff.mpr ⟨rv, hr _ _ hrv, ?_⟩⟩
    by_cases h1 : lv = Literal 1
    · simp only [if_pos h1] at h ⊢; exact h
    by_cases h2 : rv = Literal 1
    · simp only [if_neg h1, if_pos h2] at h ⊢; exact h
    by_cases h0 : lv = Literal 0 ∨ rv = Literal 0
    · simp only [if_neg h1, if_neg h2, if_pos h0] at h ⊢; exact h
    simp only [if_neg h1, if_neg h2, if_neg h0] at h ⊢
    cases hfl : asFD lv with
    | some p =>
      obtain ⟨a, b⟩ := p
      cases hfr : asFD rv with
      | some q =>
        obtain ⟨c, d⟩ := q
        simp only [hfl, hfr] at h ⊢
        exact hr _ _ h
      | none =>
        simp only [hfl, hfr] at h ⊢
        exact hr _ _ h
    | none =>
      cases hfr : asFD rv with
      | some q =>
        obtain ⟨c, d⟩ := q
        simp only [hfl, hfr] at h ⊢
        exact hr _ _ h
      | none =>
        simp only [hfl, hfr] at h ⊢
        exact h
  | FloorDivision l r =>
    simp only [simplifyStep] at h ⊢
    rw [bind_ok_iff] at h
    obtain ⟨nu, hnu, h⟩ := h
    rw [bind_ok_iff] at h
    obtain ⟨de, hde, h⟩ := h
    refine bind_ok_iff.mpr ⟨nu, hr _ _ hnu, bind_ok_iff.mpr ⟨de, hr _ _ hde, ?_⟩⟩
    by_cases h1 : de = Literal 1
    · simp only [if_pos h1] at h ⊢; exact h
    by_cases h0 : nu = Literal 0
    · simp only [if_neg h1, if_pos h0] at h ⊢; exact h
    simp only [if_neg h1, if_neg h0] at h ⊢
    cases hfd : asFD de with
    | some p =>
      obtain ⟨dc, dd⟩ := p
      simp only [hfd] at h ⊢
      exact hr _ _ h
    | none =>
      cases hfn : asFD nu with
      | some q =>
        obtain ⟨na, nb⟩ := q
        simp only [hfd, hfn] at h ⊢
        exact hr _ _ h
      | none =>
        simp only [hfd, hfn] at h ⊢
        by_cases hne : (numFactors nu).isEmpty
        · simp only [if_pos hne] at h ⊢; exact h
        simp only [if_neg hne] at h ⊢
        rw [bind_ok_iff] at h
        obtain ⟨nu1, hnu1, h⟩ := h
        rw [bind_ok_iff] at h
        obtain ⟨nu2, hnu2, h⟩ := h
        rw [bind_ok_iff] at h
        obtain ⟨de1, hde1, h⟩ := h
        rw [bind_ok_iff] at h
        obtain ⟨de2, hde2, h⟩ := h
        exact bind_ok_iff.mpr ⟨nu1, hnu1, bind_ok_iff.mpr ⟨nu2, hr _ _ hnu2,
          bind_ok_iff.mpr ⟨de1, hde1, bind_ok_iff.mpr ⟨de2, hr _ _ hde2, h⟩⟩⟩⟩

theorem simplify_mono : ∀ n e s, simplify n e = .ok s → simplify (n + 1) e = .ok s := by
  intro n
  induction n with
  | zero => intro e s h; exact absurd h (by simp [simplify])
  | succ n ih =>
    intro e s h
    simp only [simplify] at h ⊢
    exact simplifyStep_mono ih e s h

theorem simplify_mono_le {n m : ℕ} (hnm : n ≤ m) {e s} :
    simplify n e = .ok s → simplify m e = .ok s := by
  induction m with
  | zero =>
    intro h
    cases Nat.le_zero.mp hnm
    exact h
  | succ m ih =>
    intro h
    rcases Nat.lt_or_ge n (m + 1) with hlt | hge
    · exact simplify_mono m e s (ih (Nat.lt_succ_iff.mp hlt) h)
    · cases Nat.le_antisymm hnm hge
      exact h

theorem simplify_pos {n : ℕ} {e s} (h : simplify n e = .ok s) : 1 ≤ n := by
  cases n with
  | zero => exact absurd h (by simp [simplify])
  | succ n => exact Nat.succ_le_succ (Nat.zero_le n)

theorem unwrapSum_eq_single {e : Expression} (he : ∀ a b, e ≠ Sum a b) :
    unwrapSum e = [e] := by
  cases e with
  | Sum a b => exact absurd rfl (he a b)
  | Literal v => rfl
  | Negation x => rfl
  | Absolute x => rfl
  | Product a b => rfl
  | Power a b => rfl
  | FloorDivision a b => rfl

theorem extractLiterals_append (l₁ l₂ : List Expression) :
    extractLiterals (l₁ ++ l₂) =
      ((extractLiterals l₁).1 ++ (extractLiterals l₂).1,
       (extractLiterals l₁).2 ++ (extractLiterals l₂).2) := by
  induction l₁ with
  | nil => simp [extractLiterals]
  | cons e es ih =>
    cases e <;> simp [extractLiterals, ih]

theorem mapE_append_ok {f : Expression → Except PyErr Expression}
    {l₁ l₂ : List Expression} {o₁ o₂ : List Expression}
    (h₁ : mapE f l₁ = .ok o₁) (h₂ : mapE f l₂ = .ok o₂) :
    mapE f (l₁ ++ l₂) = .ok (o₁ ++ o₂) := by
  induction l₁ generalizing o₁ with
  | nil =>
    simp only [mapE] at h₁
    cases h₁
    simpa using h₂
  | cons e es ih =>
    simp only [mapE] at h₁ ⊢
    rw [bind_ok_iff] at h₁
    obtain ⟨v, hv, h₁⟩ := h₁
    rw [bind_ok_iff] at h₁
    obtain ⟨vs, hvs, h₁⟩ := h₁
    cases h₁
    exact bind_ok_iff.mpr ⟨v, hv, bind_ok_iff.mpr ⟨vs ++ o₂, ih hvs, rfl⟩⟩

theorem asFD_eq_none_of_fdFree : ∀ {e : Expression}, fdFree e = true → asFD e = none := by
  intro e h
  cases e with
  | FloorDivision a b => simp [fdFree] at h
  | Literal v => rfl
  | Negation x => rfl
  | Absolute x => rfl
  | Sum a b => rfl
  | Product a b => rfl
  | Power a b => rfl

theorem simplify_no_double_neg :
    ∀ (n : ℕ) (t u : Expression), simplify n t ≠ .ok (Negation (Negation u)) := by
  intro n
  induction n using Nat.strong_induction_on with
  | _ n ih =>
  intro t u h
  cases n with
  | zero => exact absurd h (by simp [simplify])
  | succ m =>
  have ihm : ∀ (t u : Expression), simplify m t ≠ .ok (Negation (Negation u)) :=
    fun t u => ih m (Nat.lt_succ_self m) t u
  have hstep : simplifyStep (simplify m) t = .ok (Negation (Negation u)) := h
  clear h
  cases t with
  | Literal v => exact absurd hstep (by simp [simplifyStep])
  | Negation x =>
    simp only [simplifyStep] at hstep
    rw [bind_ok_iff] at hstep
    obtain ⟨v, hv, hrest⟩ := hstep
    cases v with
    | Negation w =>
      have hw : w = Negation (Negation u) := by simpa using hrest
      subst hw
      exact ihm x (Negation u) hv
    | Literal c => exact absurd hrest (by simp)
    | Absolute a => exact absurd hrest (by simp)
    | Sum a b => exact absurd hrest (by simp)
    | Product a b => exact absurd hrest (by simp)
    | Power a b => exact absurd hrest (by simp)
    | FloorDivision a b => exact absurd hrest (by simp)
  | Absolute x =>
    simp only [simplifyStep] at hstep
    rw [bind_ok_iff] at hstep
    obtain ⟨v, hv, hrest⟩ := hstep
    cases v with
    | Negation w =>
      have hw : w = Negation (Negation u) := by simpa using hrest
      subst hw
      exact ihm x (Negation u) hv
    | Literal c => exact absurd hrest (by simp)
    | Absolute a => exact absurd hrest (by simp)
    | Sum a b => exact absurd hrest (by simp)
    | Power a b => exact absurd hrest (by simp)
    | FloorDivision a b => exact ihm _ _ hrest
    | Product a b => exact ihm _ _ hrest
  | Sum l r =>
    simp only [simplifyStep] at hstep
    rw [bind_ok_iff] at hstep
    obtain ⟨ss, hss, hrest⟩ := hstep
    by_cases h0 : (extractLiterals ss).1.sum = 0
    · rw [if_pos h0] at hrest
      exact absurd hrest (by simp [reduceAdd])
    · rw [if_neg h0] at hrest
      simp [reduceAdd] at hrest
  | Product l r =>
    simp only [simplifyStep] at hstep
    rw [bind_ok_iff] at hstep
    obtain ⟨lv, hlv, hstep⟩ := hstep
    rw [bind_ok_iff] at hstep
    obtain ⟨rv, hrv, hrest⟩ := hstep
    by_cases h1 : lv = Literal 1
    · rw [if_pos h1] at hrest
      have : rv = Negation (Negation u) := by simpa using hrest
      subst this
      exact ihm r u hrv
    by_cases h2 : rv = Literal 1
    · rw [if_neg h1, if_pos h2] at hrest
      have : lv = Negation (Negation u) := by simpa using hrest
      subst this
      exact ihm l u hlv
    by_cases h0 : lv = Literal 0 ∨ rv = Literal 0
    · rw [if_neg h1, if_neg h2, if_pos h0] at hrest
      exact absurd hrest (by simp)
    rw [if_neg h1, if_neg h2, if_neg h0] at hrest
    cases hfl : asFD lv with
    | some p =>
      obtain ⟨a, b⟩ := p
      cases hfr : asFD rv with
      | some q =>
        obtain ⟨c, d⟩ := q
        rw [hfl, hfr] at hrest
        exact ihm _ _ hrest
      | none =>
        rw [hfl, hfr] at hrest
        exact ihm _ _ hrest
    | none =>
      cases hfr : asFD rv with
      | some q =>
        obtain ⟨c, d⟩ := q
        rw [hfl, hfr] at hrest
        exact ihm _ _ hrest
      | none =>
        rw [hfl, hfr] at hrest
        exact absurd hrest (by simp)
  | Power l r =>
    simp only [simplifyStep] at hstep
    rw [bind_ok_iff] at hstep
    obtain ⟨b, hb, hstep⟩ := hstep
    rw [bind_ok_iff] at hstep
    obtain ⟨e, he, hrest⟩ := hstep
    by_cases h1 : b = Literal 1
    · rw [if_pos h1] at hrest
      rw [h1] at hrest
      exact absurd hrest (by simp)
    by_cases hm1 : b = Literal (-1)
    · rw [if_neg h1, if_pos hm1] at hrest
      rw [bind_ok_iff] at hrest
      obtain ⟨mv, hmv, hrest⟩ := hrest
      by_cases hmz : mv ≠ 0
      · rw [if_pos hmz] at hrest
        exact absurd hrest (by simp)
      · rw [if_neg hmz] at hrest
        rw [hm1] at hrest
        exact absurd hrest (by simp)
    by_cases he1 : e = Literal 1
    · rw [if_neg h1, if_neg hm1, if_pos he1] at hrest
      have : b = Negation (Negation u) := by simpa using hrest
      subst this
      exact ihm l u hb
    by_cases he0 : e = Literal 0
    · rw [if_neg h1, if_neg hm1, if_neg he1, if_pos he0] at hrest
      exact absurd hrest (by simp)
    rw [if_neg h1, if_neg hm1, if_neg he1, if_neg he0] at hrest
    exact absurd hrest (by simp)
  | FloorDivision l r =>
    simp only [simplifyStep] at hstep
    rw [bind_ok_iff] at hstep
    obtain ⟨nu, hnu, hstep⟩ := hstep
    rw [bind_ok_iff] at hstep
    obtain ⟨de, hde, hrest⟩ := hstep
    by_cases h1 : de = Literal 1
    · rw [if_pos h1] at hrest
      have : nu = Negation (Negation u) := by simpa using hrest
      subst this
      exact ihm l u hnu
    by_cases h0 : nu = Literal 0
    · rw [if_neg h1, if_pos h0] at hrest
      exact absurd hrest (by simp)
    rw [if_neg h1, if_neg h0] at hrest
    cases hfd : asFD de with
    | some p =>
      obtain ⟨dc, dd⟩ := p
      rw [hfd] at hrest
      exact ihm _ _ hrest
    | none =>
      cases hfn : asFD nu with
      | some q =>
        obtain ⟨na, nb⟩ := q
        rw [hfd, hfn] at hrest
        exact ihm _ _ hrest
      | none =>
        rw [hfd, hfn] at hrest
        by_cases hne : (numFactors nu).isEmpty
        · rw [if_pos hne] at hrest
          exact absurd hrest (by simp)
        rw [if_neg hne] at hrest
        rw [bind_ok_iff] at hrest
        obtain ⟨nu1, hnu1, hrest⟩ := hrest
        rw [bind_ok_iff] at hrest
        obtain ⟨nu2, hnu2, hrest⟩ := hrest
        rw [bind_ok_iff] at hrest
        obtain ⟨de1, hde1, hrest⟩ := hrest
        rw [bind_ok_iff] at hrest
        obtain ⟨de2, hde2, hrest⟩ := hrest
        by_cases hd1 : de2 = Literal 1
        · rw [if_pos hd1] at hrest
          have : nu2 = Negation (Negation u) := by simpa using hrest
          subst this
          exact ihm nu1 u hnu2
        · rw [if_neg hd1] at hrest
          exact absurd hrest (by simp)

theorem simplify_fix_of_neg_fix :
    ∀ (n : ℕ) (w : Expression), simplify n (Negation w) = .ok (Negation w) →
      simplify n w = .ok w := by
  intro n w h
  obtain ⟨m, rfl⟩ : ∃ m, n = m + 1 := ⟨n - 1, by have := simplify_pos h; omega⟩
  have hstep : simplifyStep (simplify m) (Negation w) = .ok (Negation w) := h
  simp only [simplifyStep] at hstep
  rw [bind_ok_iff] at hstep
  obtain ⟨v, hv, hrest⟩ := hstep
  cases v with
  | Negation w2 =>
    have : w2 = Negation w := by simpa using hrest
    subst this
    exact absurd hv (simplify_no_double_neg m w w)
  | Literal c => exact absurd hrest (by simp)
  | Absolute a =>
    have hw : Negation (Absolute a) = Negation w := by simpa using hrest
    obtain rfl : Absolute a = w := by injection hw
    exact simplify_mono m _ _ hv
  | Sum a b =>
    have hw : Negation (Sum a b) = Negation w := by simpa using hrest
    obtain rfl : Sum a b = w := by injection hw
    exact simplify_mono m _ _ hv
  | Product a b =>
    have hw : Negation (Product a b) = Negation w := by simpa using hrest
    obtain rfl : Product a b = w := by injection hw
    exact simplify_mono m _ _ hv
  | Power a b =>
    have hw : Negation (Power a b) = Negation w := by simpa using hrest
    obtain rfl : Power a b = w := by injection hw
    exact simplify_mono m _ _ hv
  | FloorDivision a b =>
    have hw : Negation (FloorDivision a b) = Negation w := by simpa using hrest
    obtain rfl : FloorDivision a b = w := by injection hw
    exact simplify_mono m _ _ hv

theorem fdiv_neg_neg : ∀ a b : ℤ, Int.fdiv (-a) (-b) = Int.fdiv a b := by
  intro a b
  cases a with
  | ofNat m =>
    cases m with
    | zero =>
      cases b with
      | ofNat n => cases n <;> rfl
      | negSucc n => rfl
    | succ m =>
      cases b with
      | ofNat n =>
        cases n with
        | zero => show (0 : ℤ) = Int.ofNat ((m + 1) / 0); rw [Nat.div_zero]; rfl
        | succ n => rfl
      | negSucc n => rfl
  | negSucc m =>
    cases b with
    | ofNat n =>
      cases n with
      | zero => show Int.ofNat ((m + 1) / 0) = 0; rw [Nat.div_zero]; rfl
      | succ n => rfl
    | negSucc n => rfl

theorem fdiv_eq_rat_floor (a b : ℤ) (hb : b ≠ 0) :
    Int.fdiv a b = ⌊(a : ℚ) / (b : ℚ)⌋ := by
  have key : ∀ a c : ℤ, 0 < c → Int.fdiv a c = ⌊(a : ℚ) / (c : ℚ)⌋ := by
    intro a c hc
    have htn : ((c.toNat : ℕ) : ℤ) = c := Int.toNat_of_nonneg hc.le
    have hcq : ((c.toNat : ℕ) : ℚ) = (c : ℚ) := by
      exact_mod_cast congrArg (fun z : ℤ => (z : ℚ)) htn
    rw [Int.fdiv_eq_ediv a hc.le]
    rw [← hcq, Rat.floor_intCast_div_natCast a c.toNat, htn]
  rcases lt_or_gt_of_ne hb with hneg | hpos
  · have h1 : Int.fdiv a b = Int.fdiv (-a) (-b) := (fdiv_neg_neg a b).symm
    have h2 : Int.fdiv (-a) (-b) = ⌊((-a : ℤ) : ℚ) / ((-b : ℤ) : ℚ)⌋ :=
      key (-a) (-b) (by omega)
    have h3 : ((-a : ℤ) : ℚ) / ((-b : ℤ) : ℚ) = (a : ℚ) / (b : ℚ) := by
      push_cast
      exact neg_div_neg_eq (a : ℚ) (b : ℚ)
    rw [h1, h2, h3]
  · exact key a b hpos

theorem fmod_modEq (a n : ℤ) : Int.fmod a n ≡ a [ZMOD n] := by
  rw [Int.modEq_iff_dvd]
  refine ⟨Int.fdiv a n, ?_⟩
  have h := Int.fmod_add_fdiv a n
  linarith

end Expression

namespace Expression

/-- C1.  The simplify-preserves-value claim fails: for the tree
`Sum(Power(Literal(2), Literal(3)), Literal(5))`, `eval` returns 13, but
`simplify` returns `Literal(5)` (evaluating to 5): `split` hands `filter` and
`filterfalse` the same generator, so `Sum.simplify` silently drops every
non-literal summand. -/
theorem c1_sum_simplify_loses_value :
    eval (Sum (Power (Literal 2) (Literal 3)) (Literal 5)) = .ok 13 ∧
    simplify 10 (Sum (Power (Literal 2) (Literal 3)) (Literal 5)) = .ok (Literal 5) ∧
    eval (Literal 5) = .ok 5 ∧ (5 : ℤ) ≠ 13 :=
  ⟨rfl, rfl, rfl, by decide⟩

/-- C2.  The described `Sum.simplify` algorithm (non-literal terms kept, in
order, before the folded literal) does not match the code: for
`Sum(Sum(Power(Literal(2), Literal(2)), Literal(3)), Literal(4))` the
described reassembly would give `Sum(Power(2,2), Literal(7))`, but the code
returns just `Literal(7)` because the shared-generator `split` leaves the
non-literal partition empty. -/
theorem c2_sum_simplify_drops_nonliterals :
    simplify 10 (Sum (Sum (Power (Literal 2) (Literal 2)) (Literal 3)) (Literal 4))
      = .ok (Literal 7) ∧
    (Literal 7 : Expression) ≠ Sum (Power (Literal 2) (Literal 2)) (Literal 7) :=
  ⟨rfl, by decide⟩

/-- C4.  The parity rule for base `-1` is inverted in the code: an even
exponent yields `Literal(-1)` and an odd exponent yields `Literal(1)`,
the opposite of the claim (and of the mathematical value, witnessed by
`eval`). -/
theorem c4_power_neg_one_parity_inverted :
    simplify 5 (Power (Literal (-1)) (Literal 2)) = .ok (Literal (-1)) ∧
    simplify 5 (Power (Literal (-1)) (Literal 3)) = .ok (Literal 1) ∧
    eval (Power (Literal (-1)) (Literal 2)) = .ok 1 ∧
    eval (Power (Literal (-1)) (Literal 3)) = .ok (-1) :=
  ⟨rfl, rfl, rfl, rfl⟩

/-- C5.  `Power.eval` raises no `DomainError` on a negative exponent: for
`Power(Literal(2), Literal(-1))` Python's `**` silently returns the float
`0.5` (the `floatPow` marker of this integer-valued model), and only the
base-zero case `Power(Literal(0), Literal(-1))` raises, with
`ZeroDivisionError`. -/
theorem c5_power_eval_negative_exponent :
    eval (Power (Literal 2) (Literal (-1))) = .error .floatPow ∧
    eval (Power (Literal 0) (Literal (-1))) = .error .divByZero :=
  ⟨rfl, rfl⟩

/-- C6.  `FloorDivision` of two literals evaluates to the rational floor
`⌊a / b⌋` (rounding toward negative infinity) whenever `b ≠ 0`. -/
theorem c6_floor_division_eval (a b : ℤ) (hb : b ≠ 0) :
    eval (FloorDivision (Literal a) (Literal b)) = .ok ⌊(a : ℚ) / (b : ℚ)⌋ := by
  have h1 : eval (FloorDivision (Literal a) (Literal b)) = .ok (Int.fdiv a b) := by
    simp [eval, hb]
  rw [h1, fdiv_eq_rat_floor a b hb]

/-- C6 witness: at `a = -7`, `b = 2` the divisor is nonzero and the result is
`-4` (floor semantics), not `-3`. -/
theorem c6_floor_division_eval_witness :
    (2 : ℤ) ≠ 0 ∧
    eval (FloorDivision (Literal (-7)) (Literal 2)) = .ok ⌊((-7 : ℤ) : ℚ) / ((2 : ℤ) : ℚ)⌋ ∧
    eval (FloorDivision (Literal (-7)) (Literal 2)) = .ok (-4) :=
  ⟨by decide, c6_floor_division_eval (-7) 2 (by decide), rfl⟩

/-- C8 counterexample.  Direct `eval` of the `__main__` scenario tree does not
succeed: both inner floor divisions evaluate to `0`, so the outer division is
`0 // 0` and raises `ZeroDivisionError`. -/
theorem c8_scenario_direct_eval_raises :
    eval mainScenario = .error .divByZero := rfl

/-- C8 amended.  Direct `eval` of the scenario tree raises `ZeroDivisionError`
(the source's own `__main__` anticipates this with a `try/except`); the
simplified tree is `Literal(3)` and evaluates to `3`. -/
theorem c8_scenario_behavior :
    eval mainScenario = .error .divByZero ∧
    simplify 30 mainScenario = .ok (Literal 3) ∧
    eval (Literal 3) = .ok 3 :=
  ⟨rfl, rfl, rfl⟩

/-- C9 counterexample.  Simplification is not idempotent up to `to_string`:
for `FloorDivision(Literal(6), Product(Literal(4), Literal(9)))` one pass
gives `(2/(2*3))` and a second pass gives `(2/3)` (the stale-`num`
pairwise-gcd loop leaves a cancellable factor behind). -/
theorem c9_not_idempotent :
    simplify 10 (FloorDivision (Literal 6) (Product (Literal 4) (Literal 9)))
      = .ok (FloorDivision (Literal 2) (Product (Literal 2) (Literal 3))) ∧
    simplify 10 (FloorDivision (Literal 2) (Product (Literal 2) (Literal 3)))
      = .ok (FloorDivision (Literal 2) (Literal 3)) ∧
    toStr (FloorDivision (Literal 2) (Product (Literal 2) (Literal 3))) = "(2/(2*3))" ∧
    toStr (FloorDivision (Literal 2) (Literal 3)) = "(2/3)" ∧
    toStr (FloorDivision (Literal 2) (Literal 3))
      ≠ toStr (FloorDivision (Literal 2) (Product (Literal 2) (Literal 3))) :=
  ⟨rfl, rfl, rfl, rfl, by decide⟩

/-- C10.  `simplify` is not total: on `Sum(Literal(1), Literal(-1))` the
literal fold is zero and is dropped, the shared-generator non-literal side is
empty, and `reduce(operator.add, ...)` is applied to an empty sequence,
raising `TypeError` instead of returning an expression. -/
theorem c10_sum_simplify_raises_on_empty_reduce :
    simplify 10 (Sum (Literal 1) (Literal (-1))) = .error .emptyReduce := rfl

/-- C7 counterexample.  `mod_reduce` need not equal the canonical residue of
`eval`: `Negation(Literal(1)) % 2` is `-(1 % 2) = -1` in the code, while the
canonical residue of `eval = -1` modulo `2` is `1`. -/
theorem c7_negation_mod_not_canonical :
    modReduce (Negation (Literal 1)) 2 = .ok (-1) ∧
    eval (Negation (Literal 1)) = .ok (-1) ∧
    Int.fmod (-1) 2 = 1 ∧ ((-1 : ℤ)) ≠ 1 :=
  ⟨rfl, rfl, rfl, by decide⟩

/-- C7 amended.  For every tree in the `Literal`/`Negation`/`Sum`/`Product`/
`Power` fragment and every modulus `m ≥ 1`, if `eval` succeeds then
`mod_reduce` succeeds and its result is congruent to the evaluated value
modulo `m` (equality with the canonical residue can fail, by the
counterexample, because `Negation.__mod__` does not re-reduce). -/
theorem c7_mod_reduce_congruent :
    ∀ t : Expression, noAbsDiv t = true → ∀ m : ℤ, 1 ≤ m → ∀ z : ℤ,
      eval t = .ok z → ∃ r, modReduce t m = .ok r ∧ r ≡ z [ZMOD m] := by
  intro t
  induction t with
  | Literal v =>
    intro _ m hm z hz
    have hm0 : m ≠ 0 := by omega
    obtain rfl : v = z := by
      simpa only [eval, Except.ok.injEq] using hz
    refine ⟨Int.fmod v m, ?_, fmod_modEq v m⟩
    simp [modReduce, hm0]
  | Negation x ih =>
    intro hn m hm z hz
    simp only [noAbsDiv] at hn
    simp only [eval] at hz
    rw [bind_ok_iff] at hz
    obtain ⟨v, hv, hz⟩ := hz
    obtain rfl : -v = z := by simpa only [Except.ok.injEq] using hz
    obtain ⟨r, hr, hcong⟩ := ih hn m hm v hv
    refine ⟨-r, ?_, hcong.neg⟩
    simp only [modReduce]
    exact bind_ok_iff.mpr ⟨r, hr, rfl⟩
  | Absolute x ih =>
    intro hn
    simp [noAbsDiv] at hn
  | Sum l r ihl ihr =>
    intro hn m hm z hz
    simp only [noAbsDiv, Bool.and_eq_true] at hn
    simp only [eval] at hz
    rw [bind_ok_iff] at hz
    obtain ⟨a, ha, hz⟩ := hz
    rw [bind_ok_iff] at hz
    obtain ⟨b, hb, hz⟩ := hz
    obtain rfl : a + b = z := by simpa only [Except.ok.injEq] using hz
    obtain ⟨ra, hra, hca⟩ := ihl hn.1 m hm a ha
    obtain ⟨rb, hrb, hcb⟩ := ihr hn.2 m hm b hb
    refine ⟨Int.fmod (ra + rb) m, ?_, (fmod_modEq _ m).trans (hca.add hcb)⟩
    simp only [modReduce]
    exact bind_ok_iff.mpr ⟨ra, hra, bind_ok_iff.mpr ⟨rb, hrb, rfl⟩⟩
  | Product l r ihl ihr =>
    intro hn m hm z hz
    simp only [noAbsDiv, Bool.and_eq_true] at hn
    simp only [eval] at hz
    rw [bind_ok_iff] at hz
    obtain ⟨a, ha, hz⟩ := hz
    rw [bind_ok_iff] at hz
    obtain ⟨b, hb, hz⟩ := hz
    obtain rfl : a * b = z := by simpa only [Except.ok.injEq] using hz
    obtain ⟨ra, hra, hca⟩ := ihl hn.1 m hm a ha
    obtain ⟨rb, hrb, hcb⟩ := ihr hn.2 m hm b hb
    refine ⟨Int.fmod (ra * rb) m, ?_, (fmod_modEq _ m).trans (hca.mul hcb)⟩
    simp only [modReduce]
    exact bind_ok_iff.mpr ⟨ra, hra, bind_ok_iff.mpr ⟨rb, hrb, rfl⟩⟩
  | Power l r ihl ihr =>
    intro hn m hm z hz
    simp only [noAbsDiv, Bool.and_eq_true] at hn
    simp only [eval] at hz
    rw [bind_ok_iff] at hz
    obtain ⟨a, ha, hz⟩ := hz
    rw [bind_ok_iff] at hz
    obtain ⟨b, hb, hz⟩ := hz
    by_cases hbe : 0 ≤ b
    · rw [if_pos hbe] at hz
      obtain rfl : a ^ b.toNat = z := by simpa only [Except.ok.injEq] using hz
      obtain ⟨ra, hra, hca⟩ := ihl hn.1 m hm a ha
      refine ⟨Int.fmod (ra ^ b.toNat) m, ?_, (fmod_modEq _ m).trans (hca.pow b.toNat)⟩
      simp only [modReduce]
      refine bind_ok_iff.mpr ⟨ra, hra, bind_ok_iff.mpr ⟨b, hb, ?_⟩⟩
      simp [pyPow, hbe]
    · rw [if_neg hbe] at hz
      by_cases ha0 : a = 0
      · rw [if_pos ha0] at hz
        exact absurd hz (by simp)
      · rw [if_neg ha0] at hz
        exact absurd hz (by simp)
  | FloorDivision l r ihl ihr =>
    intro hn
    simp [noAbsDiv] at hn

/-- C7 amended witness: for `Sum(Power(Literal(3), Literal(4)), Negation(Literal(2)))`
with modulus `7`, `eval` gives `79` and `mod_reduce` is congruent to it. -/
theorem c7_mod_reduce_congruent_witness :
    ∃ r, modReduce (Sum (Power (Literal 3) (Literal 4)) (Negation (Literal 2))) 7 = .ok r ∧
      r ≡ 79 [ZMOD 7] :=
  c7_mod_reduce_congruent
    (Sum (Power (Literal 3) (Literal 4)) (Negation (Literal 2)))
    rfl 7 (by decide) 79 rfl

/-- C3 counterexample.  The identity law `Power(x, Literal(1)).simplify() ==
x.simplify()` fails at `x = Literal(-1)`: the inverted parity rule returns
`Literal(1)` while `x.simplify()` is `Literal(-1)`. -/
theorem c3_identity_law_fails_at_neg_one :
    simplify 2 (Power (Literal (-1)) (Literal 1)) = .ok (Literal 1) ∧
    simplify 2 (Literal (-1)) = .ok (Literal (-1)) ∧
    (Literal 1 : Expression) ≠ Literal (-1) :=
  ⟨rfl, rfl, by decide⟩

/-- C3 amended.  The identity laws hold in restricted form, for any `x` whose
`simplify` succeeds with result `s` (at any fuel `n`): the `Product` law holds
unconditionally; both `Power` laws hold provided `s ≠ Literal(-1)` (the
inverted parity rule fires there); and the `Sum` law holds provided `s` is a
`Literal` with nonzero value (otherwise `Sum(x, Literal(0)).simplify()` drops
non-literal terms or raises `TypeError`). -/
theorem c3_identity_laws_amended :
    ∀ (n : ℕ) (x s : Expression), simplify n x = .ok s →
      simplify (n + 1) (Product x (Literal 1)) = .ok s ∧
      (s ≠ Literal (-1) →
        simplify (n + 1) (Power x (Literal 1)) = .ok s ∧
        simplify (n + 1) (Power x (Literal 0)) = .ok (Literal 1)) ∧
      (∀ v : ℤ, s = Literal v → v ≠ 0 →
        simplify (n + 1) (Sum x (Literal 0)) = .ok (Literal v)) := by
  intro n x s hx
  obtain ⟨m, rfl⟩ : ∃ m, n = m + 1 := ⟨n - 1, by have := simplify_pos hx; omega⟩
  refine ⟨?_, ?_, ?_⟩
  · -- Product(x, Literal(1)).simplify() = x.simplify()
    show simplifyStep (simplify (m + 1)) (Product x (Literal 1)) = .ok s
    simp only [simplifyStep]
    refine bind_ok_iff.mpr ⟨s, hx, bind_ok_iff.mpr ⟨Literal 1, rfl, ?_⟩⟩
    by_cases h1 : s = Literal 1
    · rw [if_pos h1, h1]
    · rw [if_neg h1, if_pos rfl]
  · -- the two Power laws, for s ≠ Literal (-1)
    intro hs1
    constructor
    · show simplifyStep (simplify (m + 1)) (Power x (Literal 1)) = .ok s
      simp only [simplifyStep]
      refine bind_ok_iff.mpr ⟨s, hx, bind_ok_iff.mpr ⟨Literal 1, rfl, ?_⟩⟩
      by_cases h1 : s = Literal 1
      · rw [if_pos h1, h1]
      · rw [if_neg h1, if_neg hs1, if_pos rfl]
    · show simplifyStep (simplify (m + 1)) (Power x (Literal 0)) = .ok (Literal 1)
      simp only [simplifyStep]
      refine bind_ok_iff.mpr ⟨s, hx, bind_ok_iff.mpr ⟨Literal 0, rfl, ?_⟩⟩
      by_cases h1 : s = Literal 1
      · rw [if_pos h1, h1]
      · rw [if_neg h1, if_neg hs1, if_neg (by decide : ¬(Literal 0 : Expression) = Literal 1),
          if_pos rfl]
  · -- the Sum law, for s a nonzero literal
    rintro v rfl hv0
    show simplifyStep (simplify (m + 1)) (Sum x (Literal 0)) = .ok (Literal v)
    simp only [simplifyStep]
    by_cases hxs : ∃ a b, x = Sum a b
    · obtain ⟨a, b, rfl⟩ := hxs
      have hx' : simplifyStep (simplify m) (Sum a b) = .ok (Literal v) := hx
      simp only [simplifyStep] at hx'
      rw [bind_ok_iff] at hx'
      obtain ⟨ss, hss, hres⟩ := hx'
      by_cases h0 : (extractLiterals ss).1.sum = 0
      · rw [if_pos h0] at hres
        exact absurd hres (by simp [reduceAdd])
      · rw [if_neg h0] at hres
        have hv : (extractLiterals ss).1.sum = v := by
          simpa [reduceAdd] using hres
        have houter : mapE (simplify (m + 1)) (unwrapSum (Sum (Sum a b) (Literal 0)))
            = .ok (ss ++ [Literal 0]) := by
          have h1 : unwrapSum (Sum (Sum a b) (Literal 0))
              = unwrapSum (Sum a b) ++ [Literal 0] := rfl
          rw [h1]
          refine mapE_append_ok (mapE_mono ?_ _ _ hss) rfl
          exact fun e s h => simplify_mono m e s h
        refine bind_ok_iff.mpr ⟨ss ++ [Literal 0], houter, ?_⟩
        rw [extractLiterals_append]
        have hsum : ((extractLiterals ss).1 ++ (extractLiterals [Literal 0]).1).sum = v := by
          simp [extractLiterals, hv]
        simp only [hsum]
        rw [if_neg hv0]
        simp [reduceAdd]
    · have hxu : unwrapSum x = [x] :=
        unwrapSum_eq_single (fun a b hab => hxs ⟨a, b, hab⟩)
      have houter : mapE (simplify (m + 1)) (unwrapSum (Sum x (Literal 0)))
          = .ok [Literal v, Literal 0] := by
        have h1 : unwrapSum (Sum x (Literal 0)) = unwrapSum x ++ [Literal 0] := rfl
        rw [h1, hxu]
        simp only [mapE]
        exact bind_ok_iff.mpr ⟨Literal v, hx,
          bind_ok_iff.mpr ⟨[Literal 0], rfl, rfl⟩⟩
      refine bind_ok_iff.mpr ⟨[Literal v, Literal 0], houter, ?_⟩
      have hsum : (extractLiterals [Literal v, Literal 0]).1.sum = v := by
        simp [extractLiterals]
      simp only [hsum]
      rw [if_neg hv0]
      simp [reduceAdd]

/-- C3 amended witness: instantiated at `x = Literal(2)` with fuel 1. -/
theorem c3_identity_laws_amended_witness :
    simplify 2 (Product (Literal 2) (Literal 1)) = .ok (Literal 2) ∧
    simplify 2 (Power (Literal 2) (Literal 1)) = .ok (Literal 2) ∧
    simplify 2 (Power (Literal 2) (Literal 0)) = .ok (Literal 1) ∧
    simplify 2 (Sum (Literal 2) (Literal 0)) = .ok (Literal 2) := by
  have h := c3_identity_laws_amended 1 (Literal 2) (Literal 2) rfl
  exact ⟨h.1, (h.2.1 (by decide)).1, (h.2.1 (by decide)).2, h.2.2 2 rfl (by decide)⟩

/-- C9 amended.  On trees containing no `FloorDivision` node, the result of
one `simplify` pass is a structural fixed point of `simplify` (and stays
`FloorDivision`-free), so a second pass returns the identical tree and in
particular the same `to_string` output.  The non-idempotent counterexample
necessarily involves a `FloorDivision`, whose cancellation loop is what can
leave further-simplifiable output behind. -/
theorem c9_simplify_idempotent_on_fd_free :
    ∀ (n : ℕ) (t s : Expression), fdFree t = true → simplify n t = .ok s →
      fdFree s = true ∧ simplify n s = .ok s := by
  intro n
  induction n using Nat.strong_induction_on with
  | _ n ih =>
  intro t s hf h
  cases n with
  | zero => exact absurd h (by simp [simplify])
  | succ m =>
  have ihm : ∀ (t s : Expression), fdFree t = true → simplify m t = .ok s →
      fdFree s = true ∧ simplify m s = .ok s :=
    fun t s hf h => ih m (Nat.lt_succ_self m) t s hf h
  have hstep : simplifyStep (simplify m) t = .ok s := h
  clear h
  cases t with
  | Literal v =>
    obtain rfl : Literal v = s := by simpa [simplifyStep] using hstep
    exact ⟨rfl, rfl⟩
  | Negation x =>
    have hfx : fdFree x = true := by simpa [fdFree] using hf
    simp only [simplifyStep] at hstep
    rw [bind_ok_iff] at hstep
    obtain ⟨v, hv, hrest⟩ := hstep
    obtain ⟨hfv, hfixv⟩ := ihm x v hfx hv
    cases v with
    | Negation w =>
      obtain rfl : w = s := by simpa using hrest
      refine ⟨by simpa [fdFree] using hfv, ?_⟩
      exact simplify_mono m _ _ (simplify_fix_of_neg_fix m w hfixv)
    | Literal c =>
      obtain rfl : Literal (-c) = s := by simpa using hrest
      exact ⟨rfl, rfl⟩
    | Absolute a =>
      obtain rfl : Negation (Absolute a) = s := by simpa using hrest
      refine ⟨by simpa [fdFree] using hfv, ?_⟩
      show simplifyStep (simplify m) (Negation (Absolute a)) = .ok (Negation (Absolute a))
      simp only [simplifyStep]
      exact bind_ok_iff.mpr ⟨Absolute a, hfixv, rfl⟩
    | Sum a b =>
      obtain rfl : Negation (Sum a b) = s := by simpa using hrest
      refine ⟨by simpa [fdFree] using hfv, ?_⟩
      show simplifyStep (simplify m) (Negation (Sum a b)) = .ok (Negation (Sum a b))
      simp only [simplifyStep]
      exact bind_ok_iff.mpr ⟨Sum a b, hfixv, rfl⟩
    | Product a b =>
      obtain rfl : Negation (Product a b) = s := by simpa using hrest
      refine ⟨by simpa [fdFree] using hfv, ?_⟩
      show simplifyStep (simplify m) (Negation (Product a b)) = .ok (Negation (Product a b))
      simp only [simplifyStep]
      exact bind_ok_iff.mpr ⟨Product a b, hfixv, rfl⟩
    | Power a b =>
      obtain rfl : Negation (Power a b) = s := by simpa using hrest
      refine ⟨by simpa [fdFree] using hfv, ?_⟩
      show simplifyStep (simplify m) (Negation (Power a b)) = .ok (Negation (Power a b))
      simp only [simplifyStep]
      exact bind_ok_iff.mpr ⟨Power a b, hfixv, rfl⟩
    | FloorDivision a b => simp [fdFree] at hfv
  | Absolute x =>
    have hfx : fdFree x = true := by simpa [fdFree] using hf
    simp only [simplifyStep] at hstep
    rw [bind_ok_iff] at hstep
    obtain ⟨v, hv, hrest⟩ := hstep
    obtain ⟨hfv, hfixv⟩ := ihm x v hfx hv
    cases v with
    | Absolute a =>
      obtain rfl : Absolute a = s := by simpa using hrest
      exact ⟨hfv, simplify_mono m _ _ hfixv⟩
    | Literal c =>
      obtain rfl : Literal |c| = s := by simpa using hrest
      exact ⟨rfl, rfl⟩
    | Negation w =>
      obtain rfl : w = s := by simpa using hrest
      refine ⟨by simpa [fdFree] using hfv, ?_⟩
      exact simplify_mono m _ _ (simplify_fix_of_neg_fix m w hfixv)
    | FloorDivision a b => simp [fdFree] at hfv
    | Product a b =>
      have hfp : fdFree (Product (Absolute a) (Absolute b)) = true := by
        simpa [fdFree] using hfv
      obtain ⟨hfs, hfix⟩ := ihm _ _ hfp hrest
      exact ⟨hfs, simplify_mono m _ _ hfix⟩
    | Sum a b =>
      obtain rfl : Absolute x = s := by simpa using hrest
      refine ⟨by simpa [fdFree] using hfx, ?_⟩
      show simplifyStep (simplify m) (Absolute x) = .ok (Absolute x)
      simp only [simplifyStep]
      exact bind_ok_iff.mpr ⟨Sum a b, hv, rfl⟩
    | Power a b =>
      obtain rfl : Absolute x = s := by simpa using hrest
      refine ⟨by simpa [fdFree] using hfx, ?_⟩
      show simplifyStep (simplify m) (Absolute x) = .ok (Absolute x)
      simp only [simplifyStep]
      exact bind_ok_iff.mpr ⟨Power a b, hv, rfl⟩
  | Sum l r =>
    simp only [simplifyStep] at hstep
    rw [bind_ok_iff] at hstep
    obtain ⟨ss, hss, hrest⟩ := hstep
    by_cases h0 : (extractLiterals ss).1.sum = 0
    · rw [if_pos h0] at hrest
      exact absurd hrest (by simp [reduceAdd])
    · rw [if_neg h0] at hrest
      obtain rfl : Literal (extractLiterals ss).1.sum = s := by
        simpa [reduceAdd] using hrest
      exact ⟨rfl, rfl⟩
  | Product l r =>
    have hfl : fdFree l = true := by
      have := hf
      simp [fdFree, Bool.and_eq_true] at this
      exact this.1
    have hfr : fdFree r = true := by
      have := hf
      simp [fdFree, Bool.and_eq_true] at this
      exact this.2
    simp only [simplifyStep] at hstep
    rw [bind_ok_iff] at hstep
    obtain ⟨lv, hlv, hstep⟩ := hstep
    rw [bind_ok_iff] at hstep
    obtain ⟨rv, hrv, hrest⟩ := hstep
    obtain ⟨hflv, hfixlv⟩ := ihm l lv hfl hlv
    obtain ⟨hfrv, hfixrv⟩ := ihm r rv hfr hrv
    by_cases h1 : lv = Literal 1
    · rw [if_pos h1] at hrest
      obtain rfl : rv = s := by simpa using hrest
      exact ⟨hfrv, simplify_mono m _ _ hfixrv⟩
    by_cases h2 : rv = Literal 1
    · rw [if_neg h1, if_pos h2] at hrest
      obtain rfl : lv = s := by simpa using hrest
      exact ⟨hflv, simplify_mono m _ _ hfixlv⟩
    by_cases h0 : lv = Literal 0 ∨ rv = Literal 0
    · rw [if_neg h1, if_neg h2, if_pos h0] at hrest
      obtain rfl : Literal 0 = s := by simpa using hrest
      exact ⟨rfl, rfl⟩
    rw [if_neg h1, if_neg h2, if_neg h0,
      asFD_eq_none_of_fdFree hflv, asFD_eq_none_of_fdFree hfrv] at hrest
    obtain rfl : Product lv rv = s := by simpa using hrest
    refine ⟨by simp [fdFree, hflv, hfrv], ?_⟩
    show simplifyStep (simplify m) (Product lv rv) = .ok (Product lv rv)
    simp only [simplifyStep]
    refine bind_ok_iff.mpr ⟨lv, hfixlv, bind_ok_iff.mpr ⟨rv, hfixrv, ?_⟩⟩
    rw [if_neg h1, if_neg h2, if_neg h0,
      asFD_eq_none_of_fdFree hflv, asFD_eq_none_of_fdFree hfrv]
  | Power l r =>
    have hfl : fdFree l = true := by
      have := hf
      simp [fdFree, Bool.and_eq_true] at this
      exact this.1
    have hfr : fdFree r = true := by
      have := hf
      simp [fdFree, Bool.and_eq_true] at this
      exact this.2
    simp only [simplifyStep] at hstep
    rw [bind_ok_iff] at hstep
    obtain ⟨b, hb, hstep⟩ := hstep
    rw [bind_ok_iff] at hstep
    obtain ⟨e, he, hrest⟩ := hstep
    obtain ⟨hfb, hfixb⟩ := ihm l b hfl hb
    obtain ⟨hfe, hfixe⟩ := ihm r e hfr he
    by_cases h1 : b = Literal 1
    · rw [if_pos h1, h1] at hrest
      obtain rfl : Literal 1 = s := by simpa using hrest
      exact ⟨rfl, rfl⟩
    by_cases hm1 : b = Literal (-1)
    · rw [if_neg h1, if_pos hm1] at hrest
      rw [bind_ok_iff] at hrest
      obtain ⟨mv, hmv, hrest⟩ := hrest
      by_cases hmz : mv ≠ 0
      · rw [if_pos hmz] at hrest
        obtain rfl : Literal 1 = s := by simpa using hrest
        exact ⟨rfl, rfl⟩
      · rw [if_neg hmz, hm1] at hrest
        obtain rfl : Literal (-1) = s := by simpa using hrest
        exact ⟨rfl, rfl⟩
    by_cases he1 : e = Literal 1
    · rw [if_neg h1, if_neg hm1, if_pos he1] at hrest
      obtain rfl : b = s := by simpa using hrest
      exact ⟨hfb, simplify_mono m _ _ hfixb⟩
    by_cases he0 : e = Literal 0
    · rw [if_neg h1, if_neg hm1, if_neg he1, if_pos he0] at hrest
      obtain rfl : Literal 1 = s := by simpa using hrest
      exact ⟨rfl, rfl⟩
    rw [if_neg h1, if_neg hm1, if_neg he1, if_neg he0] at hrest
    obtain rfl : Power b e = s := by simpa using hrest
    refine ⟨by simp [fdFree, hfb, hfe], ?_⟩
    show simplifyStep (simplify m) (Power b e) = .ok (Power b e)
    simp only [simplifyStep]
    refine bind_ok_iff.mpr ⟨b, hfixb, bind_ok_iff.mpr ⟨e, hfixe, ?_⟩⟩
    rw [if_neg h1, if_neg hm1, if_neg he1, if_neg he0]
  | FloorDivision l r => simp [fdFree] at hf

/-- C9 amended witness: `Product(Power(Literal(2), Literal(3)), Literal(5))`
has no `FloorDivision`, simplifies to itself, and the fixed-point theorem
applies to it. -/
theorem c9_simplify_idempotent_on_fd_free_witness :
    fdFree (Product (Power (Literal 2) (Literal 3)) (Literal 5)) = true ∧
    simplify 5 (Product (Power (Literal 2) (Literal 3)) (Literal 5))
      = .ok (Product (Power (Literal 2) (Literal 3)) (Literal 5)) := by
  have h := c9_simplify_idempotent_on_fd_free 5
    (Product (Power (Literal 2) (Literal 3)) (Literal 5))
    (Product (Power (Literal 2) (Literal 3)) (Literal 5)) rfl rfl
  exact ⟨rfl, h.2⟩

end Expression

-- Concrete behaviour of the embedding on small inputs.
example : Expression.simplify 10 (.Sum (.Literal 1) (.Literal (-1))) = .error .emptyReduce := rfl

example : Expression.simplify 10
    (.Sum (.Power (.Literal 2) (.Literal 3)) (.Literal 5)) = .ok (.Literal 5) := rfl

example : Expression.eval
    (.Sum (.Power (.Literal 2) (.Literal 3)) (.Literal 5)) = .ok 13 := rfl

example : Expression.simplify 30
    (.FloorDivision
      (.Absolute (.FloorDivision (.Literal (-2)) (.Literal (-3))))
      (.FloorDivision (.Literal 2) (.Literal 3))) = .ok (.Literal 3) := rfl

example : Expression.eval
    (.FloorDivision
      (.Absolute (.FloorDivision (.Literal (-2)) (.Literal (-3))))
      (.FloorDivision (.Literal 2) (.Literal 3))) = .error .divByZero := rfl

example : Expression.simplify 10 (.FloorDivision (.Literal 6) (.Product (.Literal 4) (.Literal 9)))
    = .ok (.FloorDivision (.Literal 2) (.Product (.Literal 2) (.Literal 3))) := rfl

example : Expression.simplify 10 (.FloorDivision (.Literal 2) (.Product (.Literal 2) (.Literal 3)))
    = .ok (.FloorDivision (.Literal 2) (.Literal 3)) := rfl

example : Expression.toStr (.FloorDivision (.Literal 2) (.Product (.Literal 2) (.Literal 3)))
    = "(2/(2*3))" := rfl

example : Expression.simplify 5 (.Power (.Literal (-1)) (.Literal 2)) = .ok (.Literal (-1)) := rfl

example : Expression.simplify 5 (.Power (.Literal (-1)) (.Literal 3)) = .ok (.Literal 1) := rfl

example : Expression.eval (.Power (.Literal 2) (.Literal (-1))) = .error .floatPow := rfl

example : Expression.modReduce (.Negation (.Literal 1)) 2 = .ok (-1) := rfl
